import Mathlib

/-!
Verification of the batched Profile retrieval and canonicalization pipeline
(`src/services/profileCleaner.ts`, `src/commands/profile/retrieve/full.ts`).

Loosely-typed JavaScript values (the `Record<string, any>` trees that
`readMetadata()` returns and `fast-xml-parser` produces) are embedded as the
inductive `JValue`.  Arrays and objects are represented as cons chains inside
the same inductive, mirroring the untyped structural recursion of the source:
an array is a chain of `arrCons` cells ending in `arrNil`, an object a chain
of `objCons` cells (key/value pairs, insertion-ordered, keys unique in any
value produced by a JS object) ending in `objNil`.
-/

inductive JValue where
  | str (s : String)
  | int (n : Int)
  | boolv (b : Bool)
  | null
  | arrNil
  | arrCons (hd tl : JValue)
  | objNil
  | objCons (key : String) (val tl : JValue)
deriving DecidableEq, Repr

namespace JValue

/-- JavaScript truthiness for the values we model: `""`, `0`, `false` and
`null` are falsy; every other primitive and every array/object (even empty)
is truthy.  (`undefined`, also falsy, is modelled as an absent field, see
`getField`/`truthyOpt` below.) -/
def truthy : JValue → Bool
  | .str s => s ≠ ""
  | .int n => n ≠ 0
  | .boolv b => b
  | .null => false
  | _ => true

/-- JavaScript property access `v[k]`: `some` of the bound value when `v` is
an object with an own property `k`, otherwise `none` (= `undefined`). -/
def getField (k : String) : JValue → Option JValue
  | .objCons key val tl => if key = k then some val else getField k tl
  | _ => none

/-- Truthiness of a possibly-undefined value: `undefined` is falsy. -/
def truthyOpt : Option JValue → Bool
  | some v => truthy v
  | none => false

/-- JavaScript `delete v[k]` (and the `const {k, ...rest} = v` destructuring
used in `buildProfileXml`): removes the binding for key `k` from the object
spine, leaving everything else — including all nested structure — untouched.
Not an object: no-op. -/
def deleteKey (k : String) : JValue → JValue
  | .objCons key val tl =>
      if key = k then deleteKey k tl else .objCons key val (deleteKey k tl)
  | v => v

/-- Top-level keys of an object, in insertion order. -/
def topKeys : JValue → List String
  | .objCons key _ tl => key :: topKeys tl
  | _ => []

/-- Top-level (key, value) bindings of an object, in insertion order. -/
def topList : JValue → List (String × JValue)
  | .objCons key val tl => (key, val) :: topList tl
  | _ => []

/-- Whether key `k` occurs anywhere in the tree, at any depth, including
inside array elements. -/
def hasKeyDeep (k : String) : JValue → Bool
  | .arrCons hd tl => hasKeyDeep k hd || hasKeyDeep k tl
  | .objCons key val tl => key == k || hasKeyDeep k val || hasKeyDeep k tl
  | _ => false

end JValue

/-- Function `removeMetaKeys` (profileCleaner.ts lines 154–167): recursively remove the
jsforce transport keys `$` and `type` from objects, mapping over arrays and
leaving primitives unchanged.  The source builds a fresh object at every
level (no mutation); the embedding is accordingly a pure total function. -/
def removeMetaKeys : JValue → JValue
  | .arrCons hd tl => .arrCons (removeMetaKeys hd) (removeMetaKeys tl)
  | .objCons key val tl =>
      if key = "$" ∨ key = "type" then removeMetaKeys tl
      else .objCons key (removeMetaKeys val) (removeMetaKeys tl)
  | v => v

/-!
### XML serialization

The repository delegates XML rendering to the `fast-xml-parser` `XMLBuilder`
(options: `ignoreAttributes: false`, `format: true`, `indentBy: '    '`,
`suppressEmptyNode: false`), which is a third-party library, not part of this
repository's sources.  The functions below are therefore
Modelled from the spec: spec §4.3 / §6 "Wire format produced" — a declaration
line, the record's fields as indented elements (4 spaces per level), keys
prefixed `@_` rendered as attributes of the enclosing element, sequence-valued
fields rendered as repeated sibling elements, empty nodes not suppressed.
-/

/-- A key that the parser/builder convention treats as an attribute
(prefix `@_`). -/
def isAttrKey (key : String) : Bool := key.data.take 2 == ['@', '_']

/-- The attribute name: the key with the `@_` prefix removed. -/
def attrName (key : String) : String := String.mk (key.data.drop 2)

/-- Text content of a primitive leaf. -/
def renderText : JValue → String
  | .str s => s
  | .int n => toString n
  | .boolv b => if b then "true" else "false"
  | _ => ""

/-- Rendered attribute list of an element whose content is the given object:
one ` name="value"` fragment per `@_`-prefixed key, in order. -/
def attrString : JValue → String
  | .objCons key val tl =>
      (if isAttrKey key
       then " " ++ attrName key ++ "=\"" ++ renderText val ++ "\""
       else "") ++ attrString tl
  | _ => ""

/-- Whether the object has at least one non-attribute field (i.e. the element
has child elements). -/
def hasChildField : JValue → Bool
  | .objCons key _ tl => (!isAttrKey key) || hasChildField tl
  | _ => false

/-- Four spaces per indentation level. -/
def indentStr (n : Nat) : String := String.join (List.replicate n "    ")

mutual

/-- Render one element named `tag` with content `v` at indentation `ind`:
primitives inline, objects as attribute list plus indented children, arrays
as repeated sibling elements, with no suppression of empty nodes. -/
def xmlElementOf (ind : Nat) (tag : String) : JValue → String
  | .arrNil => ""
  | .arrCons hd tl => xmlElementOf ind tag hd ++ xmlElementOf ind tag tl
  | .objNil => indentStr ind ++ "<" ++ tag ++ "></" ++ tag ++ ">\n"
  | .objCons key val tl =>
      indentStr ind ++ "<" ++ tag ++ attrString (.objCons key val tl) ++
      (if hasChildField (.objCons key val tl)
       then ">\n" ++
            (if isAttrKey key then "" else xmlElementOf (ind + 1) key val) ++
            xmlFieldsOf ind tl ++ indentStr ind ++ "</" ++ tag ++ ">\n"
       else "></" ++ tag ++ ">\n")
  | v => indentStr ind ++ "<" ++ tag ++ ">" ++ renderText v ++ "</" ++ tag ++ ">\n"

/-- Render the non-attribute fields of an object as child elements, in
insertion order. -/
def xmlFieldsOf (ind : Nat) : JValue → String
  | .objCons key val tl =>
      (if isAttrKey key then "" else xmlElementOf (ind + 1) key val) ++
      xmlFieldsOf ind tl
  | _ => ""

end

/-!
### The profile metadata service (profileCleaner.ts, lines 62–178)
-/

/-- Constant `BATCH_SIZE` (line 73): the `readMetadata` limit of 10 records per call. -/
def BATCH_SIZE : Nat := 10

/-- Constant `XML_DECLARATION` (line 74). -/
def XML_DECLARATION : String := "<?xml version=\"1.0\" encoding=\"UTF-8\"?>\n"

/-- Constant `PROFILE_XMLNS` (line 75). -/
def PROFILE_XMLNS : String := "http://soap.sforce.com/2006/04/metadata"

/-- Recursion worker for `chunkArray`.  Each loop iteration of the source
slices `[i, i+size)` and advances `i` by `size`; for `0 < size` the remaining
list shrinks at every step, so its initial length is enough fuel and the
fuel never runs out. -/
def chunkAux {α : Type} : Nat → List α → Nat → List (List α)
  | 0, _, _ => []
  | _ + 1, [], _ => []
  | fuel + 1, arr, size => arr.take size :: chunkAux fuel (arr.drop size) size

/-- Function `chunkArray` (lines 172–178): split a list into contiguous chunks of the
given size by repeatedly slicing `[i, i+size)` with `i` stepping by `size`.
(The source loop would not terminate for `size = 0`; it is only ever called
with `BATCH_SIZE = 10`.) -/
def chunkArray {α : Type} (arr : List α) (size : Nat) : List (List α) :=
  chunkAux arr.length arr size

/-- The raw value a `connection.metadata.read` call yields: a single bare
record for a one-element request, or an array of records (lines 103–104). -/
inductive RawResult where
  | single (r : JValue)
  | many (rs : List JValue)

/-- Line 105: `Array.isArray(raw) ? raw : [raw]` — normalize the singleton
shape into a one-element list at the call boundary. -/
def normalizeRaw : RawResult → List JValue
  | .single r => [r]
  | .many rs => rs

/-- Interface `RetrievedProfile` (lines 81–86).  The source declares `fullName: string`,
but the value is produced by the unchecked cast `item.fullName as string`
(line 114), which at run time passes the raw field value through unchanged;
the embedding therefore keeps the raw `JValue`. -/
structure RetrievedProfile where
  fullName : JValue
  xml : String
deriving DecidableEq, Repr

/-- Function `buildProfileXml` (lines 126–149): strip the transport keys with
`removeMetaKeys`, drop the top-level `fullName` field by destructuring
(`const { fullName, ...profileBody } = cleaned`), wrap the body under a
`Profile` root whose first entry is the fixed `@_xmlns` attribute, and render
it after the XML declaration. -/
def buildProfileXml (profile : JValue) : String :=
  XML_DECLARATION ++
    xmlElementOf 0 "Profile"
      (.objCons "@_xmlns" (.str PROFILE_XMLNS)
        (JValue.deleteKey "fullName" (removeMetaKeys profile)))

/-- The body of the inner `for` loop of `retrieveProfiles` (lines 107–117):
skip the item when it is falsy or its `fullName` field is absent or falsy,
otherwise append one `RetrievedProfile` built from it. -/
def processItem (results : List RetrievedProfile) (item : JValue) :
    List RetrievedProfile :=
  match JValue.getField "fullName" item with
  | some fn =>
      if item.truthy && fn.truthy
      then results ++ [⟨fn, buildProfileXml item⟩]
      else results
  | none => results

/-- Function `retrieveProfiles` (lines 95–121): chunk the names into batches of
`BATCH_SIZE`, issue one remote `read` per batch in order, normalize each raw
result to a list, and accumulate one `RetrievedProfile` per valid item.  The
remote capability is passed in as the function `read`. -/
def retrieveProfiles (read : List String → RawResult)
    (profileNames : List String) : List RetrievedProfile :=
  (chunkArray profileNames BATCH_SIZE).foldl
    (fun results batch => (normalizeRaw (read batch)).foldl processItem results)
    []

/-!
### The cleaner (profileCleaner.ts, lines 1–61) and shared types
(src/types/profileTypes.ts)
-/

/-- Interface `CleanOptions` (profileTypes.ts): three independent toggles naming the
non-portable top-level fields to strip. -/
structure CleanOptions where
  removeLoginIpRanges : Bool
  removeUserLicense : Bool
  removeLoginHours : Bool
deriving DecidableEq, Repr

/-- Constant `DEFAULT_CLEAN_OPTIONS` (profileTypes.ts, full.ts lines 226–231): remove
all three non-portable elements. -/
def DEFAULT_CLEAN_OPTIONS : CleanOptions :=
  { removeLoginIpRanges := true, removeUserLicense := true, removeLoginHours := true }

/-- The three conditional `delete profile[...]` statements of `cleanProfileXml`
(lines 46–56), applied to the parsed `Profile` object in source order. -/
def applyClean (options : CleanOptions) (profile : JValue) : JValue :=
  let p1 := if options.removeLoginIpRanges
            then JValue.deleteKey "loginIpRanges" profile else profile
  let p2 := if options.removeUserLicense
            then JValue.deleteKey "userLicense" p1 else p1
  if options.removeLoginHours then JValue.deleteKey "loginHours" p2 else p2

/-- Function `cleanProfileXml` (lines 33–61).  The XML parsing step
(`new XMLParser(parserOptions).parse(xml)` followed by the `parsed['Profile']`
lookup and the `if (!profile)` falsiness guard, lines 37–44) is performed by
the third-party `fast-xml-parser` library, so the embedding takes it as the
parameter `parse`: `parse xml = none` models "no truthy `Profile` member in
the parsed record", and `parse xml = some profile` yields the parsed root
object.  On `none` the input string is returned unchanged; otherwise the
enabled fields are deleted and the tree is re-serialized after a fresh XML
declaration (lines 58–60). -/
def cleanProfileXml (parse : String → Option JValue) (xml : String)
    (options : CleanOptions) : String :=
  match parse xml with
  | none => xml
  | some profile =>
      XML_DECLARATION ++ xmlElementOf 0 "Profile" (applyClean options profile)

/-!
### The command (src/commands/profile/retrieve/full.ts, lines 99–148)

The per-profile work inside the `try` block — optional cleaning followed by
`writeProfileToSourceFormat`, both of which may throw — is abstracted as the
capability `write`, returning either the written file path or the caught
error message.
-/

/-- Interface `ProfileRetrieveResult` (profileTypes.ts).  `name` is copied from
`RetrievedProfile.fullName`, hence kept as a raw `JValue` (see there). -/
structure ProfileRetrieveResult where
  name : JValue
  success : Bool
  filePath : Option String
  error : Option String
deriving DecidableEq, Repr

/-- The error message pushed for requested names absent from the remote
results (full.ts line 141). -/
def notFoundMessage : String :=
  "Profile not found in org or not returned by readMetadata()"

/-- The `try`/`catch` body of the per-profile loop (full.ts lines 104–132):
one success outcome carrying the file path, or one failure outcome carrying
the caught error message. -/
def processRetrieved (write : RetrievedProfile → Except String String)
    (profile : RetrievedProfile) : ProfileRetrieveResult :=
  match write profile with
  | .ok filePath => ⟨profile.fullName, true, some filePath, none⟩
  | .error e => ⟨profile.fullName, false, none, some e⟩

/-- The reconciliation loop (full.ts lines 134–145): for every requested name
not present among the retrieved `fullName`s (a `Set` membership test, i.e.
SameValueZero equality against the string `name`), push one "not found"
failure outcome. -/
def reconcileMissing (profileNames : List String)
    (retrieved : List RetrievedProfile) : List ProfileRetrieveResult :=
  (profileNames.filter
      (fun n => !(retrieved.any (fun r => r.fullName == .str n)))).map
    (fun n => ⟨.str n, false, none, some notFoundMessage⟩)

/-- The outcome accumulation of `ProfileRetrieveFull.run` (full.ts lines
101–145): one outcome per retrieved profile, in order, followed by one
"not found" outcome per requested name that was never retrieved. -/
def runOutcomes (write : RetrievedProfile → Except String String)
    (profileNames : List String) (retrieved : List RetrievedProfile) :
    List ProfileRetrieveResult :=
  retrieved.map (processRetrieved write) ++ reconcileMissing profileNames retrieved

/-!
### Helper lemmas: chunking
-/

theorem chunkArray_nil {α : Type} (size : Nat) :
    chunkArray ([] : List α) size = [] := rfl

theorem chunkAux_eq_chunkArray {α : Type} :
    ∀ (arr : List α) (fuel size : Nat), 0 < size → arr.length ≤ fuel →
      chunkAux fuel arr size = chunkArray arr size := by
  intro arr
  generalize hn : arr.length = n
  induction n using Nat.strong_induction_on generalizing arr with
  | _ n ih =>
      intro fuel size hs hlen
      cases arr with
      | nil => cases fuel <;> rfl
      | cons a as =>
          simp only [List.length_cons] at hn
          subst hn
          cases fuel with
          | zero => omega
          | succ f =>
              show (a :: as).take size :: chunkAux f ((a :: as).drop size) size = _
              have hdrop : ((a :: as).drop size).length ≤ as.length := by
                simp only [List.length_drop, List.length_cons]
                omega
              rw [show chunkArray (a :: as) size
                    = (a :: as).take size
                        :: chunkAux as.length ((a :: as).drop size) size from rfl]
              rw [ih ((a :: as).drop size).length (by omega) _ rfl f size hs
                    (by omega),
                ih ((a :: as).drop size).length (by omega) _ rfl as.length size hs
                    hdrop]

theorem chunkArray_cons {α : Type} (arr : List α) (size : Nat)
    (hs : 0 < size) (ha : arr ≠ []) :
    chunkArray arr size = arr.take size :: chunkArray (arr.drop size) size := by
  cases arr with
  | nil => exact absurd rfl ha
  | cons a as =>
      show chunkAux (as.length + 1) (a :: as) size = _
      rw [show chunkAux (as.length + 1) (a :: as) size
            = (a :: as).take size :: chunkAux as.length ((a :: as).drop size) size
          from rfl]
      rw [chunkAux_eq_chunkArray ((a :: as).drop size) as.length size hs
            (by simp only [List.length_drop, List.length_cons]; omega)]

theorem chunkArray_length {α : Type} (size : Nat) (hs : 0 < size) :
    ∀ (arr : List α), (chunkArray arr size).length = (arr.length + size - 1) / size := by
  intro arr
  generalize hn : arr.length = n
  induction n using Nat.strong_induction_on generalizing arr with
  | _ n ih =>
      cases arr with
      | nil =>
          simp only [List.length_nil] at hn
          subst hn
          simp only [chunkArray_nil, List.length_nil]
          exact (Nat.div_eq_of_lt (by omega)).symm
      | cons a as =>
          simp only [List.length_cons] at hn
          subst hn
          rw [chunkArray_cons (a :: as) size hs (by simp)]
          have hdroplen : ((a :: as).drop size).length = as.length + 1 - size := by
            simp [List.length_drop]
          rw [List.length_cons,
            ih ((a :: as).drop size).length (by omega) _ rfl, hdroplen]
          rcases Nat.lt_or_ge as.length size with hlt | hge
          · have h1 : as.length + 1 - size = 0 := by omega
            rw [h1]
            have h2 : (0 + size - 1) / size = 0 := Nat.div_eq_of_lt (by omega)
            have h3 : (as.length + 1 + size - 1) / size = 1 :=
              Nat.div_eq_of_lt_le (by omega) (by omega)
            omega
          · have h1 : as.length + 1 - size + size - 1 = as.length := by omega
            have h2 : as.length + 1 + size - 1 = as.length + size := by omega
            rw [h1, h2, Nat.add_div_right _ hs]

theorem chunkArray_chunk_le {α : Type} (size : Nat) (hs : 0 < size) :
    ∀ (arr : List α), ∀ c ∈ chunkArray arr size, c.length ≤ size := by
  intro arr
  generalize hn : arr.length = n
  induction n using Nat.strong_induction_on generalizing arr with
  | _ n ih =>
      cases arr with
      | nil => simp [chunkArray_nil]
      | cons a as =>
          simp only [List.length_cons] at hn
          subst hn
          rw [chunkArray_cons (a :: as) size hs (by simp)]
          intro c hc
          rcases List.mem_cons.mp hc with h | h
          · subst h
            exact List.length_take_le size (a :: as)
          · exact ih ((a :: as).drop size).length
              (by simp only [List.length_drop, List.length_cons]; omega)
              _ rfl c h

theorem chunkArray_flatten {α : Type} (size : Nat) (hs : 0 < size) :
    ∀ (arr : List α), (chunkArray arr size).flatten = arr := by
  intro arr
  generalize hn : arr.length = n
  induction n using Nat.strong_induction_on generalizing arr with
  | _ n ih =>
      cases arr with
      | nil => simp [chunkArray_nil]
      | cons a as =>
          simp only [List.length_cons] at hn
          subst hn
          rw [chunkArray_cons (a :: as) size hs (by simp), List.flatten_cons,
            ih ((a :: as).drop size).length
              (by simp only [List.length_drop, List.length_cons]; omega)
              _ rfl]
          exact List.take_append_drop size (a :: as)

/-- C1: for every identifier list, `retrieveProfiles` partitions it via
`chunkArray` into exactly ⌈N/10⌉ contiguous chunks (one remote call each),
every chunk has length at most 10, and concatenating the chunks in order
reconstructs the original list; an empty input yields zero chunks (hence
zero remote calls) and an empty result list. -/
theorem retrieveProfiles_batching (profileNames : List String)
    (read : List String → RawResult) :
    (chunkArray profileNames BATCH_SIZE).length = (profileNames.length + 9) / 10
    ∧ (∀ c ∈ chunkArray profileNames BATCH_SIZE, c.length ≤ 10)
    ∧ (chunkArray profileNames BATCH_SIZE).flatten = profileNames
    ∧ chunkArray ([] : List String) BATCH_SIZE = []
    ∧ retrieveProfiles read [] = [] := by
  refine ⟨?_, ?_, ?_, rfl, rfl⟩
  · exact chunkArray_length 10 (by norm_num) profileNames
  · exact chunkArray_chunk_le 10 (by norm_num) profileNames
  · exact chunkArray_flatten 10 (by norm_num) profileNames

/-- Witness for C1 at a concrete 13-element list: two chunks, the second
being the trailing three names, each chunk within the batch limit. -/
theorem retrieveProfiles_batching_witness :
    (chunkArray ["a", "b", "c", "d", "e", "f", "g", "h", "i", "j", "k", "l", "m"]
        BATCH_SIZE).length = 2
    ∧ (["k", "l", "m"] : List String).length ≤ 10 := by
  have h := retrieveProfiles_batching
    ["a", "b", "c", "d", "e", "f", "g", "h", "i", "j", "k", "l", "m"]
    (fun _ => RawResult.many [])
  exact ⟨by rw [h.1]; rfl, h.2.1 ["k", "l", "m"] (by decide)⟩

/-!
### Helper lemmas: the transport-key normalizer
-/

theorem removeMetaKeys_hasKeyDeep (k : String) (hk : k = "$" ∨ k = "type") :
    ∀ v : JValue, JValue.hasKeyDeep k (removeMetaKeys v) = false := by
  intro v
  induction v with
  | arrCons hd tl ihh iht =>
      simp [removeMetaKeys, JValue.hasKeyDeep, ihh, iht]
  | objCons key val tl ihv iht =>
      by_cases hmeta : key = "$" ∨ key = "type"
      · simpa [removeMetaKeys, hmeta] using iht
      · have hne : (key == k) = false := by
          rcases hk with h | h <;> subst h <;>
            simp only [beq_eq_false_iff_ne, ne_eq] <;> tauto
        simp [removeMetaKeys, hmeta, JValue.hasKeyDeep, hne, ihv, iht]
  | _ => simp [removeMetaKeys, JValue.hasKeyDeep]

theorem removeMetaKeys_noop :
    ∀ v : JValue, JValue.hasKeyDeep "$" v = false →
      JValue.hasKeyDeep "type" v = false → removeMetaKeys v = v := by
  intro v
  induction v with
  | arrCons hd tl ihh iht =>
      intro h1 h2
      simp only [JValue.hasKeyDeep, Bool.or_eq_false_iff] at h1 h2
      simp [removeMetaKeys, ihh h1.1 h2.1, iht h1.2 h2.2]
  | objCons key val tl ihv iht =>
      intro h1 h2
      simp only [JValue.hasKeyDeep, Bool.or_eq_false_iff, beq_eq_false_iff_ne,
        ne_eq] at h1 h2
      have hmeta : ¬(key = "$" ∨ key = "type") := by tauto
      simp [removeMetaKeys, hmeta, ihv h1.1.2 h2.1.2, iht h1.2 h2.2]
  | _ => intro _ _; rfl

theorem removeMetaKeys_topKeys :
    ∀ v : JValue, JValue.topKeys (removeMetaKeys v)
      = (JValue.topKeys v).filter (fun k => !(k == "$" || k == "type")) := by
  intro v
  induction v with
  | objCons key val tl ihv iht =>
      by_cases hmeta : key = "$" ∨ key = "type"
      · have hb : (!(key == "$" || key == "type")) = false := by
          rcases hmeta with h | h <;> subst h <;> rfl
        rw [show removeMetaKeys (JValue.objCons key val tl) = removeMetaKeys tl
            from by rw [removeMetaKeys, if_pos hmeta],
          iht,
          show JValue.topKeys (JValue.objCons key val tl)
            = key :: JValue.topKeys tl from rfl,
          List.filter_cons]
        rw [if_neg (by rw [hb]; exact Bool.false_ne_true)]
      · have hb : (!(key == "$" || key == "type")) = true := by
          push_neg at hmeta
          simp [hmeta.1, hmeta.2]
        rw [show removeMetaKeys (JValue.objCons key val tl)
              = JValue.objCons key (removeMetaKeys val) (removeMetaKeys tl)
            from by rw [removeMetaKeys, if_neg hmeta],
          show JValue.topKeys (JValue.objCons key (removeMetaKeys val)
              (removeMetaKeys tl)) = key :: JValue.topKeys (removeMetaKeys tl)
            from rfl,
          iht,
          show JValue.topKeys (JValue.objCons key val tl)
            = key :: JValue.topKeys tl from rfl,
          List.filter_cons]
        rw [if_pos hb]
  | _ => simp [removeMetaKeys, JValue.topKeys]

theorem removeMetaKeys_getField (k : String) (h1 : k ≠ "$") (h2 : k ≠ "type") :
    ∀ v : JValue, JValue.getField k (removeMetaKeys v)
      = (JValue.getField k v).map removeMetaKeys := by
  intro v
  induction v with
  | objCons key val tl ihv iht =>
      by_cases hmeta : key = "$" ∨ key = "type"
      · have hne : key ≠ k := by rcases hmeta with h | h <;> subst h <;> tauto
        simp [removeMetaKeys, hmeta, JValue.getField, hne, iht]
      · by_cases hkey : key = k
        · subst hkey
          rw [show removeMetaKeys (JValue.objCons key val tl)
                = JValue.objCons key (removeMetaKeys val) (removeMetaKeys tl)
              from by rw [removeMetaKeys, if_neg hmeta]]
          simp [JValue.getField]
        · rw [show removeMetaKeys (JValue.objCons key val tl)
                = JValue.objCons key (removeMetaKeys val) (removeMetaKeys tl)
              from by rw [removeMetaKeys, if_neg hmeta]]
          simp [JValue.getField, hkey, iht]
  | _ => simp [removeMetaKeys, JValue.getField]

/-- C2: the normalizer's output contains neither `$` nor `type` at any depth
(including inside array elements); the other keys survive in their original
order, each with its recursively-normalized value; when neither reserved key
occurs anywhere, the output is structurally equal to the input.  (Purity and
totality hold by construction: `removeMetaKeys` is a total Lean function on
trees, matching the source, which builds a fresh object at each level.) -/
theorem removeMetaKeys_correct (v : JValue) :
    JValue.hasKeyDeep "$" (removeMetaKeys v) = false
    ∧ JValue.hasKeyDeep "type" (removeMetaKeys v) = false
    ∧ JValue.topKeys (removeMetaKeys v)
        = (JValue.topKeys v).filter (fun k => !(k == "$" || k == "type"))
    ∧ (∀ k, k ≠ "$" → k ≠ "type" →
        JValue.getField k (removeMetaKeys v)
          = (JValue.getField k v).map removeMetaKeys)
    ∧ (JValue.hasKeyDeep "$" v = false → JValue.hasKeyDeep "type" v = false →
        removeMetaKeys v = v) := by
  exact ⟨removeMetaKeys_hasKeyDeep "$" (Or.inl rfl) v,
    removeMetaKeys_hasKeyDeep "type" (Or.inr rfl) v,
    removeMetaKeys_topKeys v,
    fun k h1 h2 => removeMetaKeys_getField k h1 h2 v,
    removeMetaKeys_noop v⟩

/-- Witness for C2 at a concrete tree carrying a `$` key at the top level and
a `type` key inside an array element. -/
theorem removeMetaKeys_correct_witness :
    JValue.hasKeyDeep "type"
      (removeMetaKeys
        (.objCons "$" (.str "m")
          (.objCons "fieldPermissions"
            (.arrCons (.objCons "type" (.str "t")
                (.objCons "field" (.str "f") .objNil)) .arrNil)
            (.objCons "custom" (.boolv false) .objNil)))) = false
    ∧ JValue.getField "custom"
        (removeMetaKeys
          (.objCons "$" (.str "m")
            (.objCons "fieldPermissions"
              (.arrCons (.objCons "type" (.str "t")
                  (.objCons "field" (.str "f") .objNil)) .arrNil)
              (.objCons "custom" (.boolv false) .objNil)))) = some (.boolv false)
    ∧ removeMetaKeys (.objCons "field" (.str "f") .objNil)
        = .objCons "field" (.str "f") .objNil := by
  refine ⟨(removeMetaKeys_correct _).2.1, ?_, ?_⟩
  · rw [(removeMetaKeys_correct _).2.2.2.1 "custom" (by decide) (by decide)]
    decide
  · exact (removeMetaKeys_correct _).2.2.2.2 (by decide) (by decide)

/-!
### Helper lemmas: the batch retrieval orchestrator
-/

/-- Outcome of one result item inside the inner loop: `some` built profile for
a retained entry, `none` for a skipped one (falsy item, or absent/falsy
`fullName`). -/
def itemOutcome (item : JValue) : Option RetrievedProfile :=
  match JValue.getField "fullName" item with
  | some fn =>
      if item.truthy && fn.truthy
      then some ⟨fn, buildProfileXml item⟩
      else none
  | none => none

theorem processItem_eq (results : List RetrievedProfile) (item : JValue) :
    processItem results item = results ++ (itemOutcome item).toList := by
  unfold processItem itemOutcome
  cases JValue.getField "fullName" item with
  | none => simp
  | some fn =>
      by_cases h : (item.truthy && fn.truthy) = true
      · simp [h]
      · simp [h]

theorem foldl_processItem :
    ∀ (items : List JValue) (results : List RetrievedProfile),
      items.foldl processItem results = results ++ items.filterMap itemOutcome := by
  intro items
  induction items with
  | nil => intro results; simp
  | cons i is ih =>
      intro results
      rw [List.foldl_cons, ih, processItem_eq, List.filterMap_cons]
      cases h : itemOutcome i <;> simp [h]

theorem foldl_batches (read : List String → RawResult) :
    ∀ (batches : List (List String)) (init : List RetrievedProfile),
      batches.foldl
          (fun results batch => (normalizeRaw (read batch)).foldl processItem results)
          init
        = init ++ batches.flatMap
            (fun batch => (normalizeRaw (read batch)).filterMap itemOutcome) := by
  intro batches
  induction batches with
  | nil => intro init; simp
  | cons b bs ih =>
      intro init
      rw [List.foldl_cons, ih, foldl_processItem, List.flatMap_cons,
        List.append_assoc]

theorem retrieveProfiles_characterization
    (read : List String → RawResult) (profileNames : List String) :
    retrieveProfiles read profileNames
      = (chunkArray profileNames BATCH_SIZE).flatMap
          (fun batch => (normalizeRaw (read batch)).filterMap itemOutcome) := by
  unfold retrieveProfiles
  rw [foldl_batches read (chunkArray profileNames BATCH_SIZE) []]
  simp

theorem itemOutcome_truthy {item : JValue} {r : RetrievedProfile}
    (h : itemOutcome item = some r) : r.fullName.truthy = true := by
  unfold itemOutcome at h
  split at h
  next fn hfn =>
    split at h
    next ht =>
      cases h
      exact (Bool.and_eq_true _ _ |>.mp ht).2
    next ht => simp at h
  next hfn => simp at h

/-- C8: `retrieveProfiles` produces exactly one built document per retained
item of each chunk's (normalized) remote result — entries that are absent
(null/falsy) or lack a truthy identifying `fullName` contribute nothing, and
no failure outcome is recorded for them at this stage; in particular a remote
result list of one null entry and one valid entry yields exactly the one
document built from the valid entry. -/
theorem retrieveProfiles_skips_invalid
    (read : List String → RawResult) (profileNames : List String) :
    retrieveProfiles read profileNames
      = (chunkArray profileNames BATCH_SIZE).flatMap
          (fun batch => (normalizeRaw (read batch)).filterMap itemOutcome)
    ∧ retrieveProfiles
        (fun _ => RawResult.many
          [JValue.null,
           JValue.objCons "fullName" (.str "Admin")
             (JValue.objCons "custom" (.boolv false) .objNil)])
        ["Admin", "Ghost"]
      = [⟨.str "Admin",
          buildProfileXml
            (JValue.objCons "fullName" (.str "Admin")
              (JValue.objCons "custom" (.boolv false) .objNil))⟩] := by
  exact ⟨retrieveProfiles_characterization read profileNames, rfl⟩

/-- C9: a remote capability answering each batch with a single bare record
produces exactly the same results as one answering with the corresponding
one-element list — the singleton shape is normalized at the call boundary
(line 105) before any further processing. -/
theorem retrieveProfiles_singleton_normalized
    (g : List String → JValue) (profileNames : List String) :
    retrieveProfiles (fun batch => RawResult.single (g batch)) profileNames
      = retrieveProfiles (fun batch => RawResult.many [g batch]) profileNames := rfl

/-- C10: every entry returned by `retrieveProfiles` carries a truthy
`fullName` (so, when it is a string, a non-empty one): items whose `fullName`
is the empty string are skipped exactly like items with no `fullName` at
all. -/
theorem retrieveProfiles_truthy_fullName
    (read : List String → RawResult) (profileNames : List String) :
    (∀ r ∈ retrieveProfiles read profileNames,
      r.fullName.truthy = true ∧ ∀ s, r.fullName = JValue.str s → s ≠ "")
    ∧ (∀ (item : JValue) (n : String),
        JValue.getField "fullName" item = some (JValue.str "") →
        retrieveProfiles (fun _ => RawResult.single item) [n] = []) := by
  constructor
  · intro r hr
    rw [retrieveProfiles_characterization] at hr
    obtain ⟨batch, _, hrb⟩ := List.mem_flatMap.mp hr
    obtain ⟨item, _, hio⟩ := List.mem_filterMap.mp hrb
    have ht := itemOutcome_truthy hio
    refine ⟨ht, ?_⟩
    intro s hs
    rw [hs] at ht
    simpa [JValue.truthy] using ht
  · intro item n hg
    rw [retrieveProfiles_characterization]
    rw [show chunkArray [n] BATCH_SIZE = [[n]] from rfl]
    simp [normalizeRaw, itemOutcome, hg, JValue.truthy]

/-- Witness for C10: a retrieved entry built from a valid item has a truthy
name, and an item whose `fullName` is the empty string yields no entry. -/
theorem retrieveProfiles_truthy_fullName_witness :
    (JValue.str "Admin").truthy = true
    ∧ retrieveProfiles
        (fun _ => RawResult.single
          (JValue.objCons "fullName" (JValue.str "") JValue.objNil))
        ["Ghost"] = [] := by
  have h := retrieveProfiles_truthy_fullName
    (fun _ => RawResult.many
      [JValue.objCons "fullName" (JValue.str "Admin") JValue.objNil])
    ["Admin"]
  exact ⟨(h.1 ⟨JValue.str "Admin",
      buildProfileXml (JValue.objCons "fullName" (JValue.str "Admin") JValue.objNil)⟩
      (by decide)).1,
    h.2 _ "Ghost" (by decide)⟩

/-!
### Helper lemmas: outcome reconciliation in the command
-/

theorem processRetrieved_name (write : RetrievedProfile → Except String String)
    (r : RetrievedProfile) : (processRetrieved write r).name = r.fullName := by
  unfold processRetrieved
  split <;> rfl

theorem countP_map_processRetrieved
    (write : RetrievedProfile → Except String String) (n : String)
    (retrieved : List RetrievedProfile) :
    (retrieved.map (processRetrieved write)).countP (fun o => o.name == JValue.str n)
      = (retrieved.map (fun r => r.fullName)).count (JValue.str n) := by
  rw [List.countP_map, List.count, List.countP_map]
  exact List.countP_congr (fun r _ => by
    simp only [Function.comp_apply, processRetrieved_name])

theorem countP_reconcileMissing (n : String) (profileNames : List String)
    (retrieved : List RetrievedProfile) :
    (reconcileMissing profileNames retrieved).countP (fun o => o.name == JValue.str n)
      = (profileNames.filter
          (fun m => !(retrieved.any (fun r => r.fullName == JValue.str m)))).count n := by
  unfold reconcileMissing
  rw [List.countP_map, List.count]
  exact List.countP_congr (fun m _ => by
    simp only [Function.comp_apply]
    constructor
    · intro h
      have := beq_iff_eq.mp h
      cases this
      exact beq_iff_eq.mpr rfl
    · intro h
      have := beq_iff_eq.mp h
      subst this
      exact beq_iff_eq.mpr rfl)

/-- C3 falsified as stated: the quantifier over every identifier sequence
admits duplicates, and then outcomes are not one-per-identifier.  With
request `["A", "A"]` and no remote results, the reconciliation loop pushes
two "not found" outcomes named `A`; with request `["A"]` answered by two
records named `A`, the per-profile loop pushes two success outcomes named
`A`. -/
theorem runOutcomes_duplicates_counterexample :
    ((runOutcomes (fun _ => Except.ok "p") ["A", "A"] []).filter
        (fun o => o.name == JValue.str "A")).length = 2
    ∧ ((runOutcomes (fun _ => Except.ok "p") ["A"]
          [⟨JValue.str "A", "x"⟩, ⟨JValue.str "A", "y"⟩]).filter
        (fun o => o.name == JValue.str "A")).length = 2 := by
  constructor <;> rfl

/-- C3 (amended): when the requested identifiers are pairwise distinct and
the retrieved profiles carry pairwise-distinct names (the remote service
enforces identifier uniqueness), the final outcome list contains exactly one
outcome per requested identifier — a success carrying a file path, or a
failure carrying a reason; in particular a request `[A, B, C]` answered only
for `A` and `C` yields successes for `A` and `C` and a "not found" failure
for `B` (see the witness). -/
theorem runOutcomes_one_per_identifier
    (write : RetrievedProfile → Except String String)
    (profileNames : List String) (retrieved : List RetrievedProfile)
    (hreq : profileNames.Nodup)
    (hret : (retrieved.map (fun r => r.fullName)).Nodup) :
    (∀ n ∈ profileNames,
      ((runOutcomes write profileNames retrieved).filter
          (fun o => o.name == JValue.str n)).length = 1)
    ∧ (∀ o ∈ runOutcomes write profileNames retrieved,
        (o.success = true ∧ o.filePath.isSome ∧ o.error = none)
        ∨ (o.success = false ∧ o.filePath = none ∧ o.error.isSome)) := by
  constructor
  · intro n hn
    rw [← List.countP_eq_length_filter]
    unfold runOutcomes
    rw [List.countP_append, countP_map_processRetrieved, countP_reconcileMissing]
    by_cases hany : retrieved.any (fun r => r.fullName == JValue.str n) = true
    · obtain ⟨r, hr, hrn⟩ := List.any_eq_true.mp hany
      have hmem : JValue.str n ∈ retrieved.map (fun r => r.fullName) :=
        List.mem_map.mpr ⟨r, hr, beq_iff_eq.mp hrn⟩
      rw [List.count_eq_one_of_mem hret hmem]
      have hzero :
          (profileNames.filter
            (fun m => !(retrieved.any (fun r => r.fullName == JValue.str m)))).count n
            = 0 := by
        rw [List.count_eq_zero]
        intro hmemf
        have := (List.mem_filter.mp hmemf).2
        rw [hany] at this
        simp at this
      rw [hzero]
    · have hzero : (retrieved.map (fun r => r.fullName)).count (JValue.str n) = 0 := by
        rw [List.count_eq_zero]
        intro hmem
        obtain ⟨r, hr, hrn⟩ := List.mem_map.mp hmem
        exact hany (List.any_eq_true.mpr ⟨r, hr, beq_iff_eq.mpr hrn⟩)
      rw [hzero]
      have hanyf : (retrieved.any (fun r => r.fullName == JValue.str n)) = false := by
        cases h : retrieved.any (fun r => r.fullName == JValue.str n)
        · rfl
        · exact absurd h hany
      have hq : (fun m => !(retrieved.any (fun r => r.fullName == JValue.str m))) n
          = true := by
        show (!(retrieved.any (fun r => r.fullName == JValue.str n))) = true
        rw [hanyf]
        rfl
      have hcf : (profileNames.filter
            (fun m => !(retrieved.any (fun r => r.fullName == JValue.str m)))).count n
          = profileNames.count n := List.count_filter hq
      rw [hcf, List.count_eq_one_of_mem hreq hn]
  · intro o ho
    unfold runOutcomes at ho
    rcases List.mem_append.mp ho with h | h
    · obtain ⟨r, _, hro⟩ := List.mem_map.mp h
      unfold processRetrieved at hro
      cases hw : write r with
      | ok fp => rw [hw] at hro; cases hro; exact Or.inl ⟨rfl, rfl, rfl⟩
      | error e => rw [hw] at hro; cases hro; exact Or.inr ⟨rfl, rfl, rfl⟩
    · unfold reconcileMissing at h
      obtain ⟨m, _, hmo⟩ := List.mem_map.mp h
      cases hmo
      exact Or.inr ⟨rfl, rfl, rfl⟩

/-- Witness for C3 at the spec's concrete scenario: request `[A, B, C]`,
remote results only for `A` and `C`: each of the three names gets exactly one
outcome, and every outcome is a success with a path or a failure with a
reason. -/
theorem runOutcomes_one_per_identifier_witness :
    ((runOutcomes (fun r => Except.ok ("out/" ++ r.xml)) ["A", "B", "C"]
        [⟨JValue.str "A", "xa"⟩, ⟨JValue.str "C", "xc"⟩]).filter
      (fun o => o.name == JValue.str "B")).length = 1 := by
  exact (runOutcomes_one_per_identifier (fun r => Except.ok ("out/" ++ r.xml))
    ["A", "B", "C"] [⟨JValue.str "A", "xa"⟩, ⟨JValue.str "C", "xc"⟩]
    (by decide) (by decide)).1 "B" (by decide)

/-!
### Helper lemmas: the canonical document builder
-/

theorem getField_deleteKey (k : String) :
    ∀ v : JValue, JValue.getField k (JValue.deleteKey k v) = none := by
  intro v
  induction v with
  | objCons key val tl ihv iht =>
      by_cases h : key = k
      · simpa [JValue.deleteKey, h] using iht
      · simp [JValue.deleteKey, h, JValue.getField, iht]
  | _ => rfl

/-- C4 falsified as stated: only the top-level `fullName` is removed by the
destructuring; a `fullName` field nested below another field is serialized
into the body.  Concretely, for the record
`{fullName: "A", b: {fullName: "F"}}` the produced text contains a
`<fullName>` element (inside `<b>`). -/
theorem buildProfileXml_nested_fullName_counterexample :
    List.IsInfix "<fullName>".data
      (buildProfileXml
        (JValue.objCons "fullName" (.str "A")
          (JValue.objCons "b"
            (JValue.objCons "fullName" (.str "F") .objNil) .objNil))).data := by
  refine ⟨("<?xml version=\"1.0\" encoding=\"UTF-8\"?>\n<Profile xmlns=\"http://soap.sforce.com/2006/04/metadata\">\n    <b>\n        ").data,
    ("F</fullName>\n    </b>\n</Profile>\n").data, ?_⟩
  decide

/-- C4 (amended): for every raw record, the document text starts with the
XML declaration immediately followed by the `Profile` root element carrying
the fixed namespace attribute as its first attribute, and the body object
handed to the serializer has no top-level `fullName` field (the identifier is
removed from the record's own top level; nested `fullName` fields under other
elements are preserved, see the counterexample). -/
theorem buildProfileXml_declaration_root_no_top_fullName (profile : JValue) :
    (∃ rest : String,
      buildProfileXml profile
        = XML_DECLARATION ++ "<Profile xmlns=\"" ++ PROFILE_XMLNS ++ "\"" ++ rest)
    ∧ JValue.getField "fullName"
        (JValue.deleteKey "fullName" (removeMetaKeys profile)) = none := by
  constructor
  · refine ⟨attrString (JValue.deleteKey "fullName" (removeMetaKeys profile)) ++
        (if hasChildField
            (JValue.objCons "@_xmlns" (.str PROFILE_XMLNS)
              (JValue.deleteKey "fullName" (removeMetaKeys profile)))
         then ">\n" ++
              (xmlFieldsOf 0 (JValue.deleteKey "fullName" (removeMetaKeys profile)) ++
                ("</" ++ ("Profile" ++ ">\n")))
         else "></" ++ ("Profile" ++ ">\n")), ?_⟩
    rw [show buildProfileXml profile
          = XML_DECLARATION ++
            ("" ++ "<" ++ "Profile" ++
              ((" " ++ "xmlns" ++ "=\"" ++ PROFILE_XMLNS ++ "\"") ++
                attrString (JValue.deleteKey "fullName" (removeMetaKeys profile))) ++
              (if hasChildField
                  (JValue.objCons "@_xmlns" (.str PROFILE_XMLNS)
                    (JValue.deleteKey "fullName" (removeMetaKeys profile)))
               then ">\n" ++ "" ++
                    xmlFieldsOf 0 (JValue.deleteKey "fullName" (removeMetaKeys profile)) ++
                    "" ++ "</" ++ "Profile" ++ ">\n"
               else "></" ++ "Profile" ++ ">\n"))
        from rfl]
    simp only [String.empty_append, String.append_assoc]
    rw [show ("<Profile xmlns=\"" : String)
          = "<" ++ ("Profile" ++ (" " ++ ("xmlns" ++ "=\""))) from rfl]
    simp only [String.append_assoc]
  · exact getField_deleteKey "fullName" _

/-!
### Helper lemmas: the selective field stripper
-/

theorem deleteKey_idem (k : String) :
    ∀ v : JValue, JValue.deleteKey k (JValue.deleteKey k v) = JValue.deleteKey k v := by
  intro v
  induction v with
  | objCons key val tl ihv iht =>
      by_cases h : key = k
      · simpa [JValue.deleteKey, h] using iht
      · simp [JValue.deleteKey, h, iht]
  | _ => rfl

theorem deleteKey_comm (k k' : String) :
    ∀ v : JValue, JValue.deleteKey k (JValue.deleteKey k' v)
      = JValue.deleteKey k' (JValue.deleteKey k v) := by
  by_cases hkk : k = k'
  · subst hkk
    intro v
    rfl
  · intro v
    induction v with
    | objCons key val tl ihv iht =>
        by_cases h : key = k'
        · subst h
          simp [JValue.deleteKey, hkk, Ne.symm hkk, iht]
        · by_cases h2 : key = k
          · subst h2
            simp [JValue.deleteKey, h, hkk, Ne.symm hkk, iht]
          · simp [JValue.deleteKey, h, h2, iht]
    | _ => rfl

theorem applyClean_idem (options : CleanOptions) (v : JValue) :
    applyClean options (applyClean options v) = applyClean options v := by
  obtain ⟨o1, o2, o3⟩ := options
  cases o1 <;> cases o2 <;> cases o3 <;>
    simp [applyClean, deleteKey_idem, deleteKey_comm, deleteKey_idem]

theorem topList_deleteKey (k : String) :
    ∀ v : JValue, JValue.topList (JValue.deleteKey k v)
      = (JValue.topList v).filter (fun kv => !(kv.1 == k)) := by
  intro v
  induction v with
  | objCons key val tl ihv iht =>
      by_cases h : key = k
      · subst h
        rw [show JValue.deleteKey key (JValue.objCons key val tl)
              = JValue.deleteKey key tl from by rw [JValue.deleteKey, if_pos rfl],
          iht,
          show JValue.topList (JValue.objCons key val tl)
            = (key, val) :: JValue.topList tl from rfl,
          List.filter_cons]
        simp
      · rw [show JValue.deleteKey k (JValue.objCons key val tl)
              = JValue.objCons key val (JValue.deleteKey k tl) from by
            rw [JValue.deleteKey, if_neg h],
          show JValue.topList (JValue.objCons key val (JValue.deleteKey k tl))
            = (key, val) :: JValue.topList (JValue.deleteKey k tl) from rfl,
          iht,
          show JValue.topList (JValue.objCons key val tl)
            = (key, val) :: JValue.topList tl from rfl,
          List.filter_cons]
        simp [h]
  | _ => rfl

/-- C5: `cleanProfileXml` is idempotent.  The external parser is abstracted
by the parameter `parse`; the hypothesis states its round-trip behavior on
the one string this instance produces (spec §4.3(f): serialization is
reversible): re-parsing the cleaned output yields the cleaned tree.  Under
it, cleaning the cleaned output is byte-identical to cleaning once — the
no-root branch returns the input unchanged, and the field deletions are
idempotent. -/
theorem cleanProfileXml_idempotent (parse : String → Option JValue)
    (xml : String) (options : CleanOptions)
    (hparse : ∀ profile, parse xml = some profile →
      parse (cleanProfileXml parse xml options) = some (applyClean options profile)) :
    cleanProfileXml parse (cleanProfileXml parse xml options) options
      = cleanProfileXml parse xml options := by
  cases hp : parse xml with
  | none =>
      have h1 : cleanProfileXml parse xml options = xml := by
        unfold cleanProfileXml
        rw [hp]
      rw [h1]
      exact h1
  | some profile =>
      have hrt := hparse profile hp
      have h1 : cleanProfileXml parse xml options
          = XML_DECLARATION ++ xmlElementOf 0 "Profile" (applyClean options profile) := by
        unfold cleanProfileXml
        rw [hp]
      rw [h1] at hrt ⊢
      have h2 : cleanProfileXml parse
          (XML_DECLARATION ++ xmlElementOf 0 "Profile" (applyClean options profile))
          options
          = XML_DECLARATION ++
            xmlElementOf 0 "Profile" (applyClean options (applyClean options profile)) := by
        unfold cleanProfileXml
        rw [hrt]
      rw [h2, applyClean_idem]

/-- A concrete parsed `Profile` object used by the cleaner witnesses: the
three non-portable fields plus a `fieldPermissions` subtree. -/
def cleanWitnessProfile : JValue :=
  JValue.objCons "loginIpRanges" (.objCons "startAddress" (.str "1.2.3.4") .objNil)
    (JValue.objCons "userLicense" (.str "Salesforce")
      (JValue.objCons "fieldPermissions"
        (JValue.objCons "field" (.str "Account.Name") .objNil)
        (JValue.objCons "loginHours" (.objCons "mondayStart" (.str "300") .objNil)
          .objNil)))

/-- A concrete two-string parser table for the cleaner witnesses: the string
`"raw"` parses to `cleanWitnessProfile`, the cleaned serialization of that
profile parses back to the cleaned tree, and everything else has no `Profile`
root. -/
def cleanWitnessParse : String → Option JValue := fun s =>
  if s = "raw" then some cleanWitnessProfile
  else if s = XML_DECLARATION ++ xmlElementOf 0 "Profile"
      (applyClean DEFAULT_CLEAN_OPTIONS cleanWitnessProfile) then
    some (applyClean DEFAULT_CLEAN_OPTIONS cleanWitnessProfile)
  else none

/-- Witness for C5: the concrete parser table satisfies the round-trip
hypothesis by evaluation, so cleaning twice is byte-identical to cleaning
once. -/
theorem cleanProfileXml_idempotent_witness :
    cleanProfileXml cleanWitnessParse
        (cleanProfileXml cleanWitnessParse "raw" DEFAULT_CLEAN_OPTIONS)
        DEFAULT_CLEAN_OPTIONS
      = cleanProfileXml cleanWitnessParse "raw" DEFAULT_CLEAN_OPTIONS := by
  refine cleanProfileXml_idempotent cleanWitnessParse "raw" DEFAULT_CLEAN_OPTIONS ?_
  intro profile hp
  rw [show cleanWitnessParse "raw" = some cleanWitnessProfile from rfl] at hp
  injection hp with h2
  subst h2
  decide

/-- C6: with the default configuration, cleaning a parsed `Profile` object
re-serializes exactly `applyClean` of it, and `applyClean` removes precisely
the top-level `loginIpRanges`, `userLicense` and `loginHours` bindings: the
top-level binding list of the result is the original list with those three
keys filtered out — every other top-level field keeps its identical (not
merely equivalent) subtree, in the original order, so nested structure is
never inspected or modified except by whole-subtree deletion. -/
theorem cleanProfileXml_default_removes_exactly (parse : String → Option JValue)
    (xml : String) (profile : JValue) (hp : parse xml = some profile) :
    cleanProfileXml parse xml DEFAULT_CLEAN_OPTIONS
      = XML_DECLARATION ++
        xmlElementOf 0 "Profile" (applyClean DEFAULT_CLEAN_OPTIONS profile)
    ∧ JValue.topList (applyClean DEFAULT_CLEAN_OPTIONS profile)
        = (JValue.topList profile).filter
            (fun kv => !(kv.1 == "loginIpRanges" || kv.1 == "userLicense"
              || kv.1 == "loginHours")) := by
  constructor
  · unfold cleanProfileXml
    rw [hp]
  · rw [show applyClean DEFAULT_CLEAN_OPTIONS profile
          = JValue.deleteKey "loginHours"
              (JValue.deleteKey "userLicense"
                (JValue.deleteKey "loginIpRanges" profile)) from rfl,
      topList_deleteKey, topList_deleteKey, topList_deleteKey,
      List.filter_filter, List.filter_filter]
    exact List.filter_congr (fun kv _ => by
      cases h1 : kv.1 == "loginIpRanges" <;>
        cases h2 : kv.1 == "userLicense" <;>
          cases h3 : kv.1 == "loginHours" <;>
            simp [h1, h2, h3])

/-- Witness for C6: on the concrete profile, the cleaned top-level bindings
are exactly the `fieldPermissions` subtree, unchanged. -/
theorem cleanProfileXml_default_removes_exactly_witness :
    cleanProfileXml cleanWitnessParse "raw" DEFAULT_CLEAN_OPTIONS
      = XML_DECLARATION ++
        xmlElementOf 0 "Profile" (applyClean DEFAULT_CLEAN_OPTIONS cleanWitnessProfile)
    ∧ JValue.topList (applyClean DEFAULT_CLEAN_OPTIONS cleanWitnessProfile)
        = [("fieldPermissions",
            JValue.objCons "field" (.str "Account.Name") .objNil)] := by
  have h := cleanProfileXml_default_removes_exactly cleanWitnessParse "raw"
    cleanWitnessProfile (by decide)
  exact ⟨h.1, by rw [h.2]; decide⟩

/-- C7: when the parser finds no (truthy) `Profile` root in the input, the
cleaner returns the input string unchanged, byte-identical, for every
cleaning configuration — this case is a pass-through, not an error. -/
theorem cleanProfileXml_passthrough (parse : String → Option JValue)
    (xml : String) (options : CleanOptions) (hp : parse xml = none) :
    cleanProfileXml parse xml options = xml := by
  unfold cleanProfileXml
  rw [hp]

/-- Witness for C7: a non-Profile document comes back byte-identical. -/
theorem cleanProfileXml_passthrough_witness :
    cleanProfileXml cleanWitnessParse "<notes>hi</notes>" DEFAULT_CLEAN_OPTIONS
      = "<notes>hi</notes>" :=
  cleanProfileXml_passthrough cleanWitnessParse "<notes>hi</notes>"
    DEFAULT_CLEAN_OPTIONS (by decide)
